import Mathlib

/-!
Verification of the one-wire temperature monitoring service (`src/main.rs`).

The development shallowly embeds the program's core into Lean:

* the **Sensor Reader** `read_temperature` works on file contents modelled as
  `List Char` (the `f64` result of `raw as f64 / 1000.0` is modelled exactly
  as a rational, since the raw value is an integer and the claims are about
  exact values);
* the **Metric Registry** (the prometheus `Registry`, the
  `temperature_gauges` map and the gauges' current values) is modelled by
  `RegState`, where a gauge handle is a creation index `Nat`;
* one iteration of the **Sampling Loop** body (`update_temperatures`) is
  `update_temperatures_cycle`, over a filesystem model `Fs`;
* the lock/filesystem interleaving of one loop iteration is modelled by the
  event trace `cycle_trace` with lock states computed by `markLocks`;
* the `/temperatures` handler's output is modelled by the relation
  `HandlerOutput`: iteration over a `std::collections::HashMap` yields the
  entries in an arbitrary (unspecified) order, i.e. an arbitrary permutation.
-/

/-! ## String model: Rust `str::lines`, `str::split("t=")`, `i32::from_str` -/

/-- Splitting a character list at every occurrence of the character `c`,
mirroring Rust's `str::split(c)`: always returns at least one (possibly
empty) piece. -/
def splitOnChar (c : Char) : List Char → List (List Char)
  | [] => [[]]
  | x :: xs =>
    if x = c then [] :: splitOnChar c xs
    else
      match splitOnChar c xs with
      | [] => [[x]]
      | h :: t => (x :: h) :: t

/-- Remove one trailing carriage return: applied to a `'\n'`-terminated
segment, this turns an `\r\n` line ending into the line Rust's
`str::lines` yields. -/
def stripCR : List Char → List Char
  | [] => []
  | [c] => if c = '\r' then [] else [c]
  | c :: c' :: cs => c :: stripCR (c' :: cs)

/-- Post-process the pieces of a split at `'\n'` the way Rust's
`str::lines` does: every piece but the last was terminated by `'\n'` and
loses a trailing `'\r'` (an `\r\n` ending); the final piece had no
terminator, so it is kept verbatim (a bare trailing `'\r'` stays) and is
dropped only when empty (content ending in `'\n'` yields no extra line). -/
def linesFix : List (List Char) → List (List Char)
  | [] => []
  | x :: xs =>
    match xs with
    | [] => if x = [] then [] else [x]
    | y :: ys => stripCR x :: linesFix (y :: ys)

/-- Rust's `content.lines()`: split at `'\n'` and post-process the pieces
with `linesFix`. On `"foo\r\nbar\n\nbaz\r"` this yields
`["foo", "bar", "", "baz\r"]`, as the std documentation's example does. -/
def rustLines (s : List Char) : List (List Char) :=
  linesFix (splitOnChar '\n' s)

/-- The piece of `l` before the next occurrence of the two-character
pattern `t=`. -/
def untilTEq : List Char → List Char
  | [] => []
  | c :: cs => if c = 't' ∧ cs.head? = some '=' then [] else c :: untilTEq cs

/-- Rust's `line.split("t=").nth(1)`: the piece strictly between the first
occurrence of `t=` and the following occurrence (or the end); `none` when
`t=` does not occur. -/
def afterFirstTEq : List Char → Option (List Char)
  | [] => none
  | c :: cs =>
    if c = 't' ∧ cs.head? = some '=' then some (untilTEq cs.tail)
    else afterFirstTEq cs

/-- Whether `t=` occurs in `l`. -/
def hasTEq (l : List Char) : Bool :=
  (afterFirstTEq l).isSome

/-- The numeric value of an ASCII decimal digit. -/
def digitVal (c : Char) : Option Nat :=
  if '0' ≤ c ∧ c ≤ '9' then some (c.toNat - 48) else none

/-- Accumulate the value of a digit string; fails on any non-digit. -/
def digitsValAux : Nat → List Char → Option Nat
  | acc, [] => some acc
  | acc, c :: cs =>
    match digitVal c with
    | some d => digitsValAux (10 * acc + d) cs
    | none => none

/-- The value of a non-empty all-digit string; `none` otherwise. -/
def digitsVal : List Char → Option Nat
  | [] => none
  | cs => digitsValAux 0 cs

/-- The mathematical value denoted by an optional `+`/`-` sign followed by
a non-empty digit string (Rust integer-literal syntax, no range check). -/
def intVal : List Char → Option Int
  | [] => none
  | c :: cs =>
    if c = '+' then (digitsVal cs).map (fun n => (n : Int))
    else if c = '-' then (digitsVal cs).map (fun n => -(n : Int))
    else (digitsVal (c :: cs)).map (fun n => (n : Int))

/-- Rust's `str::parse::<i32>()`: integer-literal syntax with the value
required to fit in a signed 32-bit integer. -/
def parseI32 (s : List Char) : Option Int :=
  (intVal s).bind fun n =>
    if -2147483648 ≤ n ∧ n ≤ 2147483647 then some n else none

/-- The failure cases of `read_temperature`: the `?`/`ok_or` exits of the
source, in order. -/
inductive ReadError
  | missingFile
  | noSecondLine
  | noTField
  | parseError
deriving DecidableEq, Repr

deriving instance DecidableEq for Except

/-- The parsing pipeline of `read_temperature` on the raw file content:
second line, text after the first `t=`, parsed as `i32` (millidegrees). -/
def read_temperature_raw (content : List Char) : Except ReadError Int :=
  match (rustLines content).get? 1 with
  | none => .error .noSecondLine
  | some line =>
    match afterFirstTEq line with
    | none => .error .noTField
    | some s =>
      match parseI32 s with
      | none => .error .parseError
      | some n => .ok n

/-- `read_temperature`: the file content is `none` when the `w1_slave` file
cannot be read; on success the millidegree value is divided by 1000
(`temp_raw as f64 / 1000.0`, modelled exactly in `ℚ`). -/
def read_temperature (file : Option (List Char)) : Except ReadError ℚ :=
  match file with
  | none => .error .missingFile
  | some content => (read_temperature_raw content).map fun n : Int => (n : ℚ) / 1000

example : read_temperature (some ("abc\nxyz t=23625\n").data) = .ok (23625 / 1000 : ℚ) := by
  rfl

example : read_temperature (some ("abc\nxyz t=23625 def\n").data) = .error .parseError := by
  rfl

example : read_temperature_raw ("abc\nxyz t=23625\n").data = .ok 23625 := by decide

example : read_temperature none = .error .missingFile := by rfl

/-! ## Association-list model of the two `HashMap`s and of gauge values -/

/-- `HashMap::get`: the value stored at key `k`. -/
def alookup {α β : Type} [DecidableEq α] (k : α) : List (α × β) → Option β
  | [] => none
  | (a, b) :: t => if a = k then some b else alookup k t

/-- `HashMap::insert`: replace the entry at `k` when present, otherwise add
it. -/
def aupsert {α β : Type} [DecidableEq α] (k : α) (v : β) : List (α × β) → List (α × β)
  | [] => [(k, v)]
  | (a, b) :: t => if a = k then (k, v) :: t else (a, b) :: aupsert k v t

/-! ## Metric Registry model -/

/-- The registry side of `AppState`: the `temperature_gauges` map
(sensor id → gauge handle), the prometheus `Registry`'s list of registered
gauges (`sensor` label and handle, in registration order), each gauge's
current value, and the next fresh handle. A gauge handle is the creation
index of the gauge object. -/
structure RegState where
  gauges : List (String × Nat)
  registry : List (String × Nat)
  values : List (Nat × ℚ)
  next : Nat
deriving DecidableEq

/-- `Registry::new()` plus the two empty `HashMap`s. -/
def emptyReg : RegState := ⟨[], [], [], 0⟩

/-- `gauges.entry(name).or_insert_with(|| { Gauge::with_opts(..); registry.register(..) })`:
return the existing gauge handle for `id`, or create a fresh gauge
(initial value 0), register it, store it in the map, and return it. -/
def get_or_create (st : RegState) (id : String) : Nat × RegState :=
  match alookup id st.gauges with
  | some g => (g, st)
  | none =>
    (st.next,
      { gauges := st.gauges ++ [(id, st.next)],
        registry := st.registry ++ [(id, st.next)],
        values := st.values ++ [(st.next, 0)],
        next := st.next + 1 })

/-- `gauge.set(temp)`. -/
def gauge_set (st : RegState) (g : Nat) (v : ℚ) : RegState :=
  { st with values := aupsert g v st.values }

/-- `register_gauge(&registry, device)`: unconditionally create a fresh
gauge labelled with `device` (initial value 0) and register it; the caller
stores it in the `temperature_gauges` map separately. -/
def register_gauge (st : RegState) (id : String) : Nat × RegState :=
  (st.next,
    { st with
      registry := st.registry ++ [(id, st.next)],
      values := st.values ++ [(st.next, 0)],
      next := st.next + 1 })

/-- A sequence of get-or-create calls starting from the empty registry. -/
def run_calls (ids : List String) : RegState :=
  ids.foldl (fun st id => (get_or_create st id).2) emptyReg

/-- The `/metrics` handler's `registry.gather()` + `TextEncoder`: one
(`sensor` label, current value) sample per registered gauge. -/
def render_metrics (st : RegState) : List (String × ℚ) :=
  st.registry.map fun p => (p.1, (alookup p.2 st.values).getD 0)

/-- Well-formedness of a registry state: every stored gauge handle is below
the fresh counter, and distinct map entries hold distinct gauge objects.
Holds for every state the program actually constructs. -/
def RegWF (r : RegState) : Prop :=
  (∀ p ∈ r.gauges, p.2 < r.next) ∧ (r.gauges.map Prod.snd).Nodup

/-! ## Sampling Loop model -/

/-- The filesystem as seen by one cycle: the listing of
`/sys/bus/w1/devices` (`none` when `read_dir` fails) and, per device name,
the content of its `w1_slave` file (`none` when unreadable). -/
structure Fs where
  dir : Option (List String)
  file : String → Option (List Char)

/-- The mutable state touched by one cycle: the `temperatures` map and the
registry side. -/
structure CycleState where
  temps : List (String × ℚ)
  reg : RegState
deriving DecidableEq

/-- The one-wire temperature family code used to classify devices. -/
def familyCode : String := "28-"

/-- `p` is a leading sequence of `s` (Rust's `str::starts_with`, modelled
over the character lists). -/
def leadsWith : List Char → List Char → Bool
  | [], _ => true
  | _ :: _, [] => false
  | p :: ps, c :: cs => p = c && leadsWith ps cs

/-- `entry.file_name().to_string_lossy().starts_with("28-")`. -/
def isSensorName (s : String) : Bool :=
  leadsWith familyCode.data s.data

/-- The device filter of `update_temperatures` (and of `main`'s startup
scan): keep exactly the entries whose name starts with `"28-"`. -/
def sensors_of (entries : List String) : List String :=
  entries.filter isSensorName

/-- The per-sensor body of `update_temperatures`: on a successful read,
insert into `temperatures`, get-or-create the gauge and set it; on failure,
log and leave the state unchanged. -/
def process_sensor (fs : Fs) (st : CycleState) (name : String) : CycleState :=
  match read_temperature (fs.file name) with
  | .error _ => st
  | .ok temp =>
    let p := get_or_create st.reg name
    { temps := aupsert name temp st.temps, reg := gauge_set p.2 p.1 temp }

/-- One iteration of the `update_temperatures` loop body: list the devices
directory (on failure, log and change nothing), filter to sensors, process
each in order. -/
def update_temperatures_cycle (fs : Fs) (st : CycleState) : CycleState :=
  match fs.dir with
  | none => st
  | some entries => (sensors_of entries).foldl (process_sensor fs) st

/-- The device name of the placeholder gauge registered by `main` when the
startup directory listing fails. -/
def mockId : String := "28-mock"

/-- The startup scan in `main`: on a successful listing, register a gauge
for every `"28-"` device and store it in the map; on failure, register one
for the placeholder `"28-mock"`. -/
def main_startup (dir : Option (List String)) (st : RegState) : RegState :=
  match dir with
  | some devices =>
    devices.foldl
      (fun st d =>
        if isSensorName d then
          let p := register_gauge st d
          { p.2 with gauges := aupsert d p.1 p.2.gauges }
        else st)
      st
  | none =>
    let p := register_gauge st mockId
    { p.2 with gauges := aupsert mockId p.1 p.2.gauges }

/-! ## Lock/filesystem event trace of one cycle -/

/-- The externally visible events of one loop iteration: the directory
listing, taking/dropping the two write locks, each per-sensor file read,
and the final sleep. -/
inductive Ev
  | readDir
  | acquireLocks
  | readFile (id : String)
  | releaseLocks
  | sleepTick
deriving DecidableEq

/-- The event sequence of one iteration of `update_temperatures`:
`fs::read_dir` first; then, inside the `Ok` arm, `temperatures.write()` and
`temperature_gauges.write()` are taken, each sensor's file is read, the
guards are dropped at the end of the arm; finally the 60-second sleep. -/
def cycle_trace (fs : Fs) : List Ev :=
  match fs.dir with
  | none => [Ev.readDir, Ev.sleepTick]
  | some entries =>
    Ev.readDir :: Ev.acquireLocks ::
      ((sensors_of entries).map Ev.readFile ++ [Ev.releaseLocks, Ev.sleepTick])

/-- Pair each event with whether the write locks are held when it starts,
given the initial lock state. -/
def markLocks : Bool → List Ev → List (Ev × Bool)
  | _, [] => []
  | b, e :: r =>
    match e with
    | Ev.acquireLocks => (e, b) :: markLocks true r
    | Ev.releaseLocks => (e, b) :: markLocks false r
    | _ => (e, b) :: markLocks b r

/-- Whether an event is a filesystem read. -/
def isFsRead : Ev → Bool
  | Ev.readDir => true
  | Ev.readFile _ => true
  | _ => false

/-- The property claimed of the loop: no filesystem read happens while the
shared locks are held. -/
def locks_respected (fs : Fs) : Prop :=
  ∀ e b, (e, b) ∈ markLocks false (cycle_trace fs) → isFsRead e = true → b = false

/-! ## `/temperatures` handler model -/

/-- The `/temperatures` handler iterates the `temperatures` `HashMap` and
returns one `{sensor_id, celsius}` record per entry. `HashMap` iteration
yields the entries in an arbitrary, unspecified order, so the possible
outputs are exactly the permutations of the cached entries. -/
def HandlerOutput (temps out : List (String × ℚ)) : Prop :=
  temps.Perm out

/-- Lexicographic comparison of sensor ids by character code. -/
def leChars : List Char → List Char → Bool
  | [], _ => true
  | _ :: _, [] => false
  | a :: as, b :: bs => if a = b then leChars as bs else decide (a < b)

/-- The output order the claim promises: adjacent entries non-decreasing in
`sensor_id`. -/
def sortedById : List (String × ℚ) → Bool
  | [] => true
  | [_] => true
  | a :: b :: t => leChars a.1.data b.1.data && sortedById (b :: t)

/-! ## Lemmas on association lists -/

theorem alookup_aupsert_self {α β : Type} [DecidableEq α] (k : α) (v : β) (l : List (α × β)) :
    alookup k (aupsert k v l) = some v := by
  induction l with
  | nil => simp [alookup, aupsert]
  | cons p t ih =>
    obtain ⟨a, b⟩ := p
    by_cases h : a = k
    · simp [alookup, aupsert, h]
    · simp [alookup, aupsert, h, ih]

theorem alookup_aupsert_ne {α β : Type} [DecidableEq α] {k k' : α} (v : β) (l : List (α × β))
    (h : k' ≠ k) : alookup k' (aupsert k v l) = alookup k' l := by
  have h' : k ≠ k' := Ne.symm h
  induction l with
  | nil => simp [alookup, aupsert, h']
  | cons p t ih =>
    obtain ⟨a, b⟩ := p
    by_cases ha : a = k
    · simp [alookup, aupsert, ha, h']
    · simp [alookup, aupsert, ha, ih]

theorem alookup_append {α β : Type} [DecidableEq α] (k : α) (l m : List (α × β)) :
    alookup k (l ++ m) =
      match alookup k l with
      | some v => some v
      | none => alookup k m := by
  induction l with
  | nil => simp [alookup]
  | cons p t ih =>
    obtain ⟨a, b⟩ := p
    by_cases h : a = k
    · simp [alookup, h]
    · simp [alookup, h, ih]

theorem alookup_eq_none_iff {α β : Type} [DecidableEq α] (k : α) (l : List (α × β)) :
    alookup k l = none ↔ k ∉ l.map Prod.fst := by
  induction l with
  | nil => simp [alookup]
  | cons p t ih =>
    obtain ⟨a, b⟩ := p
    by_cases h : a = k
    · simp [alookup, h]
    · simp [alookup, h, ih, Ne.symm h]

theorem alookup_mem {α β : Type} [DecidableEq α] {k : α} {v : β} {l : List (α × β)}
    (h : alookup k l = some v) : (k, v) ∈ l := by
  induction l with
  | nil => simp [alookup] at h
  | cons p t ih =>
    obtain ⟨a, b⟩ := p
    by_cases ha : a = k
    · subst ha
      simp [alookup] at h
      simp [h]
    · simp [alookup, ha] at h
      exact List.mem_cons_of_mem _ (ih h)

theorem alookup_inj_of_nodup_snd {α β : Type} [DecidableEq α] {l : List (α × β)}
    (hnd : (l.map Prod.snd).Nodup) {x y : α} {v : β}
    (hx : alookup x l = some v) (hy : alookup y l = some v) : x = y := by
  induction l with
  | nil => simp [alookup] at hx
  | cons p t ih =>
    obtain ⟨a, b⟩ := p
    simp only [List.map_cons, List.nodup_cons] at hnd
    simp only [alookup] at hx hy
    by_cases hax : a = x
    · rw [if_pos hax] at hx
      by_cases hay : a = y
      · exact hax.symm.trans hay
      · rw [if_neg hay] at hy
        exfalso
        have hb : b = v := Option.some.inj hx
        refine hnd.1 ?_
        rw [hb]
        exact List.mem_map_of_mem Prod.snd (alookup_mem hy)
    · rw [if_neg hax] at hx
      by_cases hay : a = y
      · rw [if_pos hay] at hy
        exfalso
        have hb : b = v := Option.some.inj hy
        refine hnd.1 ?_
        rw [hb]
        exact List.mem_map_of_mem Prod.snd (alookup_mem hx)
      · rw [if_neg hay] at hy
        exact ih hnd.2 hx hy

/-! ## Lemmas on the string pipeline -/

theorem splitOnChar_ne_nil (c : Char) (s : List Char) : splitOnChar c s ≠ [] := by
  induction s with
  | nil => simp [splitOnChar]
  | cons x xs ih =>
    by_cases h : x = c
    · simp [splitOnChar, h]
    · simp only [splitOnChar, if_neg h]
      cases hs : splitOnChar c xs with
      | nil => simp
      | cons a t => simp

theorem splitOnChar_append {c : Char} {l : List Char} (r : List Char) (h : c ∉ l) :
    splitOnChar c (l ++ c :: r) = l :: splitOnChar c r := by
  induction l with
  | nil => simp [splitOnChar]
  | cons x xs ih =>
    simp only [List.mem_cons, not_or] at h
    have hx : ¬x = c := fun hxc => h.1 hxc.symm
    have hrec := ih h.2
    rw [List.cons_append]
    simp only [splitOnChar, if_neg hx, hrec]

theorem linesFix_cons_cons (a b : List Char) (t : List (List Char)) :
    linesFix (a :: b :: t) = stripCR a :: linesFix (b :: t) := by
  simp [linesFix]

theorem getLast?_mem_of_eq {l : List Char} {d : Char} (h : l.getLast? = some d) : d ∈ l := by
  induction l with
  | nil => simp at h
  | cons x xs ih =>
    cases xs with
    | nil =>
      have hx : x = d := by simpa using h
      simp [hx]
    | cons y t =>
      rw [List.getLast?_cons_cons] at h
      exact List.mem_cons_of_mem _ (ih h)

theorem getLast?_cons_of_ne_nil (a : Char) {l : List Char} (h : l ≠ []) :
    (a :: l).getLast? = l.getLast? := by
  cases l with
  | nil => exact absurd rfl h
  | cons y t => exact List.getLast?_cons_cons

theorem getLast?_append_right (l₁ : List Char) {l₂ : List Char} (h : l₂ ≠ []) :
    (l₁ ++ l₂).getLast? = l₂.getLast? := by
  induction l₁ with
  | nil => simp
  | cons x xs ih =>
    rw [List.cons_append, getLast?_cons_of_ne_nil _ (by simp [h]), ih]

theorem stripCR_of_getLast {l : List Char} {d : Char} (h : l.getLast? = some d)
    (hd : d ≠ '\r') : stripCR l = l := by
  induction l with
  | nil => simp [stripCR]
  | cons x xs ih =>
    cases xs with
    | nil =>
      have hx : x = d := by simpa using h
      subst hx
      simp [stripCR, hd]
    | cons y t =>
      rw [List.getLast?_cons_cons] at h
      simp only [stripCR]
      rw [ih h]

theorem digitVal_eq_some {c : Char} {d : Nat} (h : digitVal c = some d) :
    '0' ≤ c ∧ c ≤ '9' := by
  by_cases hc : '0' ≤ c ∧ c ≤ '9'
  · exact hc
  · simp [digitVal, hc] at h

theorem digitsValAux_chars :
    ∀ (l : List Char) (acc n : Nat), digitsValAux acc l = some n →
      ∀ c ∈ l, '0' ≤ c ∧ c ≤ '9' := by
  intro l
  induction l with
  | nil => simp
  | cons x xs ih =>
    intro acc n h c hc
    simp only [digitsValAux] at h
    cases hd : digitVal x with
    | none => rw [hd] at h; exact absurd h (by simp)
    | some d =>
      rw [hd] at h
      rcases List.mem_cons.mp hc with hcx | hcxs
      · exact hcx ▸ digitVal_eq_some hd
      · exact ih _ n h c hcxs

theorem digitsVal_chars {l : List Char} {n : Nat} (h : digitsVal l = some n) :
    l ≠ [] ∧ ∀ c ∈ l, '0' ≤ c ∧ c ≤ '9' := by
  cases l with
  | nil => simp [digitsVal] at h
  | cons x xs =>
    refine ⟨by simp, ?_⟩
    exact digitsValAux_chars (x :: xs) 0 n h

theorem exists_getLast?_of_ne_nil {l : List Char} (h : l ≠ []) :
    ∃ d, l.getLast? = some d := by
  cases hg : l.getLast? with
  | none => exact absurd (List.getLast?_eq_none_iff.mp hg) h
  | some d => exact ⟨d, rfl⟩

/-- The characters of a successfully parsed integer literal: every
character is a sign or a digit, and the last one is a digit. -/
theorem intVal_chars {s : List Char} {N : Int} (h : intVal s = some N) :
    (∀ c ∈ s, c = '+' ∨ c = '-' ∨ ('0' ≤ c ∧ c ≤ '9')) ∧
      ∃ d, s.getLast? = some d ∧ '0' ≤ d ∧ d ≤ '9' := by
  cases s with
  | nil => simp [intVal] at h
  | cons c0 cs =>
    by_cases hp : c0 = '+'
    · cases hn : digitsVal cs with
      | none => simp [intVal, hp, hn] at h
      | some n =>
        obtain ⟨hne, hdig⟩ := digitsVal_chars hn
        obtain ⟨d, hd⟩ := exists_getLast?_of_ne_nil hne
        refine ⟨?_, d, by rw [getLast?_cons_of_ne_nil _ hne]; exact hd,
          hdig d (getLast?_mem_of_eq hd)⟩
        intro c hc
        rcases List.mem_cons.mp hc with hcx | hcxs
        · exact Or.inl (hcx.trans hp)
        · exact Or.inr (Or.inr (hdig c hcxs))
    · by_cases hm : c0 = '-'
      · cases hn : digitsVal cs with
        | none => simp [intVal, hp, hm, hn] at h
        | some n =>
          obtain ⟨hne, hdig⟩ := digitsVal_chars hn
          obtain ⟨d, hd⟩ := exists_getLast?_of_ne_nil hne
          refine ⟨?_, d, by rw [getLast?_cons_of_ne_nil _ hne]; exact hd,
            hdig d (getLast?_mem_of_eq hd)⟩
          intro c hc
          rcases List.mem_cons.mp hc with hcx | hcxs
          · exact Or.inr (Or.inl (hcx.trans hm))
          · exact Or.inr (Or.inr (hdig c hcxs))
      · cases hn : digitsVal (c0 :: cs) with
        | none => simp [intVal, hp, hm, hn] at h
        | some n =>
          obtain ⟨-, hdig⟩ := digitsVal_chars hn
          obtain ⟨d, hd⟩ := exists_getLast?_of_ne_nil (l := c0 :: cs) (by simp)
          exact ⟨fun c hc => Or.inr (Or.inr (hdig c hc)), d, hd,
            hdig d (getLast?_mem_of_eq hd)⟩

theorem intVal_no_t {s : List Char} {N : Int} (h : intVal s = some N) :
    ∀ c ∈ s, c ≠ 't' := by
  intro c hc hct
  subst hct
  rcases (intVal_chars h).1 _ hc with h' | h' | h'
  · exact absurd h' (by decide)
  · exact absurd h' (by decide)
  · exact absurd h'.2 (by decide)

theorem intVal_no_nl {s : List Char} {N : Int} (h : intVal s = some N) :
    '\n' ∉ s := by
  intro hc
  rcases (intVal_chars h).1 _ hc with h' | h' | h'
  · exact absurd h' (by decide)
  · exact absurd h' (by decide)
  · exact absurd h'.1 (by decide)

theorem intVal_last_not_cr {s : List Char} {N : Int} (h : intVal s = some N) :
    ∃ d, s.getLast? = some d ∧ d ≠ '\r' := by
  obtain ⟨d, hd, hd0, hd9⟩ := (intVal_chars h).2
  refine ⟨d, hd, ?_⟩
  intro hcr
  subst hcr
  exact absurd hd0 (by decide)

theorem untilTEq_of_no_t {s : List Char} (h : ∀ c ∈ s, c ≠ 't') :
    untilTEq s = s := by
  induction s with
  | nil => rfl
  | cons c cs ih =>
    have hc : c ≠ 't' := h c (List.mem_cons_self c cs)
    simp only [untilTEq]
    rw [if_neg (by simp [hc]), ih fun x hx => h x (List.mem_cons_of_mem c hx)]

theorem afterFirstTEq_none_of_hasTEq_false {l : List Char} (h : hasTEq l = false) :
    afterFirstTEq l = none := by
  unfold hasTEq at h
  cases hl : afterFirstTEq l with
  | none => rfl
  | some s => rw [hl] at h; simp at h

theorem afterFirstTEq_append (pre s : List Char) (h : hasTEq pre = false) :
    afterFirstTEq (pre ++ 't' :: '=' :: s) = some (untilTEq s) := by
  induction pre with
  | nil => simp [afterFirstTEq]
  | cons c pre' ih =>
    have hnone : afterFirstTEq (c :: pre') = none := afterFirstTEq_none_of_hasTEq_false h
    simp only [afterFirstTEq] at hnone
    have hcond : ¬(c = 't' ∧ pre'.head? = some '=') := by
      intro hcd
      rw [if_pos hcd] at hnone
      exact Option.noConfusion hnone
    rw [if_neg hcond] at hnone
    have hpre' : hasTEq pre' = false := by
      unfold hasTEq
      rw [hnone]
      rfl
    rw [List.cons_append]
    simp only [afterFirstTEq]
    have hcond2 : ¬(c = 't' ∧ (pre' ++ 't' :: '=' :: s).head? = some '=') := by
      intro hcd
      cases pre' with
      | nil => simp at hcd
      | cons d rest =>
        refine hcond ⟨hcd.1, ?_⟩
        have := hcd.2
        simp only [List.cons_append, List.head?_cons] at this
        simp [List.head?_cons, this]
    rw [if_neg hcond2, ih hpre']

theorem rustLines_get1 {l1 l2 : List Char} (rest : List Char) {d : Char}
    (h1 : '\n' ∉ l1) (h2 : '\n' ∉ l2)
    (hd : l2.getLast? = some d) (hdcr : d ≠ '\r') :
    (rustLines (l1 ++ '\n' :: (l2 ++ '\n' :: rest))).get? 1 = some l2 := by
  unfold rustLines
  rw [splitOnChar_append _ h1, splitOnChar_append _ h2]
  cases hT : splitOnChar '\n' rest with
  | nil => exact absurd hT (splitOnChar_ne_nil _ _)
  | cons t0 T =>
    rw [linesFix_cons_cons, linesFix_cons_cons]
    simp only [List.get?]
    rw [stripCR_of_getLast hd hdcr]

theorem parseI32_eq_some_iff (s : List Char) (N : Int) :
    parseI32 s = some N ↔
      intVal s = some N ∧ -2147483648 ≤ N ∧ N ≤ 2147483647 := by
  unfold parseI32
  cases hv : intVal s with
  | none => simp
  | some m =>
    by_cases hr : -2147483648 ≤ m ∧ m ≤ 2147483647
    · simp only [Option.bind, if_pos hr]
      constructor
      · intro h
        obtain rfl : m = N := Option.some.inj h
        exact ⟨rfl, hr⟩
      · rintro ⟨hm, -⟩
        exact hm
    · simp only [Option.bind, if_neg hr]
      constructor
      · intro h
        exact Option.noConfusion h
      · rintro ⟨hm, hrange⟩
        obtain rfl : m = N := Option.some.inj hm
        exact absurd hrange hr

/-- A file whose first line is `l1`, whose second line is
`pre ++ "t=" ++ s` with no earlier `t=` occurrence, and whose remaining
content is `rest`, is read up to parsing `s` as an `i32`. -/
theorem read_raw_pipeline (l1 pre s rest : List Char) {N : Int}
    (h1 : '\n' ∉ l1) (h2 : '\n' ∉ pre) (h3 : hasTEq pre = false)
    (hIV : intVal s = some N) :
    read_temperature_raw (l1 ++ '\n' :: ((pre ++ 't' :: '=' :: s) ++ '\n' :: rest)) =
      match parseI32 s with
      | none => .error .parseError
      | some n => .ok n := by
  obtain ⟨d, hds, hdcr⟩ := intVal_last_not_cr hIV
  have hsne : s ≠ [] := by
    intro hs
    subst hs
    simp at hds
  have h2' : '\n' ∉ pre ++ 't' :: '=' :: s := by
    rw [List.mem_append]
    rintro (hc | hc)
    · exact h2 hc
    · rcases List.mem_cons.mp hc with hc' | hc'
      · exact absurd hc' (by decide)
      · rcases List.mem_cons.mp hc' with hc'' | hc''
        · exact absurd hc'' (by decide)
        · exact intVal_no_nl hIV hc''
  have hlast : (pre ++ 't' :: '=' :: s).getLast? = some d := by
    rw [getLast?_append_right pre (by simp), List.getLast?_cons_cons,
      getLast?_cons_of_ne_nil _ hsne]
    exact hds
  have hlines := rustLines_get1 rest h1 h2' hlast hdcr
  unfold read_temperature_raw
  simp only [hlines, afterFirstTEq_append pre s h3, untilTEq_of_no_t (intVal_no_t hIV)]

/-! ## Lemmas on the Metric Registry -/

theorem goc_found {r : RegState} {id : String} {g : Nat}
    (h : alookup id r.gauges = some g) : get_or_create r id = (g, r) := by
  unfold get_or_create
  rw [h]

theorem goc_gauges_pres {r : RegState} (id : String) {n : String} {g : Nat}
    (h : alookup n r.gauges = some g) :
    alookup n ((get_or_create r id).2).gauges = some g := by
  unfold get_or_create
  cases hid : alookup id r.gauges with
  | some g' => exact h
  | none =>
    simp only [alookup_append, h]

theorem goc_gauges_ne {r : RegState} {id n : String} (hne : n ≠ id) :
    alookup n ((get_or_create r id).2).gauges = alookup n r.gauges := by
  unfold get_or_create
  cases hid : alookup id r.gauges with
  | some g' => rfl
  | none =>
    simp only [alookup_append]
    cases hn : alookup n r.gauges with
    | some g => rfl
    | none => simp [alookup, Ne.symm hne]

theorem goc_next_le (r : RegState) (id : String) :
    r.next ≤ ((get_or_create r id).2).next := by
  unfold get_or_create
  cases hid : alookup id r.gauges with
  | some g' => exact le_refl _
  | none => exact Nat.le_succ _

theorem goc_WF {r : RegState} (id : String) (h : RegWF r) :
    RegWF ((get_or_create r id).2) := by
  unfold get_or_create
  cases hid : alookup id r.gauges with
  | some g' => exact h
  | none =>
    constructor
    · intro p hp
      rcases List.mem_append.mp hp with hp' | hp'
      · exact Nat.lt_succ_of_lt (h.1 p hp')
      · rcases List.mem_singleton.mp hp' with rfl
        exact Nat.lt_succ_self _
    · rw [List.map_append, List.nodup_append]
      refine ⟨h.2, List.nodup_singleton _, ?_⟩
      intro a ha hb
      rcases List.mem_singleton.mp (by simpa using hb) with rfl
      obtain ⟨p, hp, hpa⟩ := List.mem_map.mp ha
      exact absurd (hpa ▸ h.1 p hp) (lt_irrefl _)

theorem goc_values_lt {r : RegState} (id : String) {g : Nat} (hg : g < r.next) :
    alookup g ((get_or_create r id).2).values = alookup g r.values := by
  unfold get_or_create
  cases hid : alookup id r.gauges with
  | some g' => rfl
  | none =>
    simp only [alookup_append]
    cases hv : alookup g r.values with
    | some v => rfl
    | none => simp [alookup, Ne.symm (Nat.ne_of_lt hg)]

theorem handle_lt_of_lookup {r : RegState} {n : String} {g : Nat} (hWF : RegWF r)
    (h : alookup n r.gauges = some g) : g < r.next :=
  hWF.1 (n, g) (alookup_mem h)

theorem goc_handle_ne {r : RegState} {id name : String} {g : Nat} (hWF : RegWF r)
    (hname : alookup name r.gauges = some g) (hne : id ≠ name) :
    (get_or_create r id).1 ≠ g := by
  cases hid : alookup id r.gauges with
  | some g' =>
    rw [goc_found hid]
    intro hgg
    have hid' : alookup id r.gauges = some g := by
      rw [hid]
      exact congrArg some hgg
    exact hne (alookup_inj_of_nodup_snd hWF.2 hid' hname)
  | none =>
    unfold get_or_create
    rw [hid]
    exact Nat.ne_of_gt (handle_lt_of_lookup hWF hname)

/-! ## Lemmas on one sampling cycle -/

theorem process_fail {fs : Fs} {st : CycleState} {x : String}
    (h : (read_temperature (fs.file x)).isOk = false) :
    process_sensor fs st x = st := by
  unfold process_sensor
  cases hr : read_temperature (fs.file x) with
  | error e => rfl
  | ok t => rw [hr] at h; exact absurd h (by simp [Except.isOk, Except.toBool])

theorem process_temps_ne {fs : Fs} {st : CycleState} {x n : String} (hne : n ≠ x) :
    alookup n (process_sensor fs st x).temps = alookup n st.temps := by
  unfold process_sensor
  cases hr : read_temperature (fs.file x) with
  | error e => rfl
  | ok t => exact alookup_aupsert_ne t st.temps hne

theorem process_gauges_ne {fs : Fs} {st : CycleState} {x n : String} (hne : n ≠ x) :
    alookup n (process_sensor fs st x).reg.gauges = alookup n st.reg.gauges := by
  unfold process_sensor
  cases hr : read_temperature (fs.file x) with
  | error e => rfl
  | ok t => exact goc_gauges_ne hne

theorem process_WF {fs : Fs} {st : CycleState} (x : String) (h : RegWF st.reg) :
    RegWF (process_sensor fs st x).reg := by
  unfold process_sensor
  cases hr : read_temperature (fs.file x) with
  | error e => exact h
  | ok t => exact goc_WF x h

theorem process_val_frame {fs : Fs} {st : CycleState} {x name : String} {g : Nat}
    (hWF : RegWF st.reg) (hname : alookup name st.reg.gauges = some g)
    (hne : x ≠ name) :
    alookup g (process_sensor fs st x).reg.values = alookup g st.reg.values := by
  unfold process_sensor
  cases hr : read_temperature (fs.file x) with
  | error e => rfl
  | ok t =>
    have hhne : (get_or_create st.reg x).1 ≠ g := goc_handle_ne hWF hname hne
    show alookup g (aupsert (get_or_create st.reg x).1 t
      ((get_or_create st.reg x).2).values) = alookup g st.reg.values
    rw [alookup_aupsert_ne _ _ (Ne.symm hhne)]
    exact goc_values_lt x (handle_lt_of_lookup hWF hname)

theorem process_ok_temps {fs : Fs} {st : CycleState} {x : String} {t : ℚ}
    (h : read_temperature (fs.file x) = .ok t) :
    alookup x (process_sensor fs st x).temps = some t := by
  unfold process_sensor
  rw [h]
  exact alookup_aupsert_self x t st.temps

/-- Processing a list of sensors none of which is `name` with a successful
read leaves `name`'s entries in the temperatures map and the gauge map
unchanged. -/
theorem fold_frame (fs : Fs) (name : String) :
    ∀ (l : List String) (st : CycleState),
      (∀ x ∈ l, x = name → (read_temperature (fs.file x)).isOk = false) →
      alookup name (l.foldl (process_sensor fs) st).temps = alookup name st.temps
      ∧ alookup name (l.foldl (process_sensor fs) st).reg.gauges
          = alookup name st.reg.gauges := by
  intro l
  induction l with
  | nil => intro st h; exact ⟨rfl, rfl⟩
  | cons x xs ih =>
    intro st h
    rw [List.foldl_cons]
    have hxs : ∀ y ∈ xs, y = name → (read_temperature (fs.file y)).isOk = false :=
      fun y hy => h y (List.mem_cons_of_mem x hy)
    by_cases hx : x = name
    · rw [process_fail (h x (List.mem_cons_self x xs) hx)]
      exact ih st hxs
    · obtain ⟨ht, hg⟩ := ih (process_sensor fs st x) hxs
      rw [ht, hg, process_temps_ne (fun hn => hx hn.symm),
        process_gauges_ne (fun hn => hx hn.symm)]
      exact ⟨rfl, rfl⟩

/-- As `fold_frame`, and additionally the gauge object that `name` owned
before the cycle keeps its value, given a well-formed registry. -/
theorem fold_val_frame (fs : Fs) (name : String) (g : Nat) :
    ∀ (l : List String) (st : CycleState),
      RegWF st.reg →
      alookup name st.reg.gauges = some g →
      (∀ x ∈ l, x = name → (read_temperature (fs.file x)).isOk = false) →
      RegWF (l.foldl (process_sensor fs) st).reg
      ∧ alookup name (l.foldl (process_sensor fs) st).reg.gauges = some g
      ∧ alookup g (l.foldl (process_sensor fs) st).reg.values
          = alookup g st.reg.values := by
  intro l
  induction l with
  | nil => intro st hWF hname h; exact ⟨hWF, hname, rfl⟩
  | cons x xs ih =>
    intro st hWF hname h
    rw [List.foldl_cons]
    have hxs : ∀ y ∈ xs, y = name → (read_temperature (fs.file y)).isOk = false :=
      fun y hy => h y (List.mem_cons_of_mem x hy)
    by_cases hx : x = name
    · rw [process_fail (h x (List.mem_cons_self x xs) hx)]
      exact ih st hWF hname hxs
    · have hWF' : RegWF (process_sensor fs st x).reg := process_WF x hWF
      have hname' : alookup name (process_sensor fs st x).reg.gauges = some g := by
        rw [process_gauges_ne (fun hn => hx hn.symm)]
        exact hname
      obtain ⟨hWF'', hname'', hval''⟩ := ih (process_sensor fs st x) hWF' hname' hxs
      refine ⟨hWF'', hname'', ?_⟩
      rw [hval'', process_val_frame hWF hname hx]

/-- A sensor not occurring in the processed list keeps its temperature
entry. -/
theorem fold_temps_not_mem (fs : Fs) {name : String} {l : List String}
    (hnm : name ∉ l) (st : CycleState) :
    alookup name (l.foldl (process_sensor fs) st).temps = alookup name st.temps :=
  (fold_frame fs name l st fun x hx hxe => absurd (hxe ▸ hx) hnm).1

/-- Every sensor in the cycle's list whose read succeeds ends up in the
temperatures map with the value read, provided the list has no duplicate
names. -/
theorem fold_ok_temps (fs : Fs) :
    ∀ (l : List String) (st : CycleState) (x : String) (t : ℚ),
      l.Nodup → x ∈ l → read_temperature (fs.file x) = .ok t →
      alookup x (l.foldl (process_sensor fs) st).temps = some t := by
  intro l
  induction l with
  | nil => intro st x t _ hx; exact absurd hx (List.not_mem_nil x)
  | cons a xs ih =>
    intro st x t hnd hx hread
    rw [List.foldl_cons]
    rcases List.mem_cons.mp hx with rfl | hxs
    · have hnx : x ∉ xs := (List.nodup_cons.mp hnd).1
      rw [fold_temps_not_mem fs hnx (process_sensor fs st x)]
      exact process_ok_temps hread
    · exact ih (process_sensor fs st a) x t (List.nodup_cons.mp hnd).2 hxs hread

/-! ## Lemmas for registration idempotence and the metric count -/

/-- The sensor ids present in the gauge map. -/
def reg_keys (r : RegState) : List String := r.gauges.map Prod.fst

/-- The registration invariant: gauge-map keys are distinct and the
prometheus registry holds exactly one gauge per gauge-map entry. -/
def RegCount (r : RegState) : Prop :=
  (reg_keys r).Nodup ∧ r.registry.length = r.gauges.length

theorem goc_twice (st : RegState) (id : String) :
    get_or_create ((get_or_create st id).2) id
      = ((get_or_create st id).1, (get_or_create st id).2) := by
  cases hid : alookup id st.gauges with
  | some g =>
    rw [goc_found hid, goc_found hid]
  | none =>
    have hid2 : alookup id ((get_or_create st id).2).gauges = some st.next := by
      unfold get_or_create
      rw [hid]
      simp [alookup_append, hid, alookup]
    rw [goc_found hid2]
    unfold get_or_create
    rw [hid]

theorem goc_keyset (r : RegState) (id : String) :
    (reg_keys ((get_or_create r id).2)).toFinset = insert id (reg_keys r).toFinset := by
  cases hid : alookup id r.gauges with
  | some g =>
    rw [goc_found hid]
    have hmem : id ∈ (reg_keys r).toFinset := by
      rw [List.mem_toFinset]
      exact List.mem_map_of_mem Prod.fst (alookup_mem hid)
    rw [Finset.insert_eq_self.mpr hmem]
  | none =>
    unfold get_or_create
    rw [hid]
    show ((r.gauges ++ [(id, r.next)]).map Prod.fst).toFinset
      = insert id (reg_keys r).toFinset
    rw [List.map_append, List.map_singleton, List.toFinset_append, List.toFinset_cons,
      List.toFinset_nil, Finset.union_insert, Finset.union_empty]
    rfl

theorem goc_count {r : RegState} (id : String) (h : RegCount r) :
    RegCount ((get_or_create r id).2) := by
  cases hid : alookup id r.gauges with
  | some g =>
    rw [goc_found hid]
    exact h
  | none =>
    unfold get_or_create
    rw [hid]
    constructor
    · show ((r.gauges ++ [(id, r.next)]).map Prod.fst).Nodup
      rw [List.map_append, List.nodup_append]
      refine ⟨h.1, List.nodup_singleton _, ?_⟩
      intro a ha hb
      have hab : a = id := List.mem_singleton.mp (by simpa using hb)
      exact (alookup_eq_none_iff id r.gauges).mp hid (hab ▸ ha)
    · show (r.registry ++ [(id, r.next)]).length = (r.gauges ++ [(id, r.next)]).length
      simp [h.2]

theorem run_from_keyset :
    ∀ (ids : List String) (r : RegState),
      (reg_keys (ids.foldl (fun st id => (get_or_create st id).2) r)).toFinset
        = (reg_keys r).toFinset ∪ ids.toFinset := by
  intro ids
  induction ids with
  | nil => intro r; simp
  | cons x xs ih =>
    intro r
    rw [List.foldl_cons, ih ((get_or_create r x).2), goc_keyset r x]
    rw [List.toFinset_cons, Finset.insert_union, Finset.union_insert]

theorem run_from_count :
    ∀ (ids : List String) (r : RegState), RegCount r →
      RegCount (ids.foldl (fun st id => (get_or_create st id).2) r) := by
  intro ids
  induction ids with
  | nil => intro r h; exact h
  | cons x xs ih =>
    intro r h
    rw [List.foldl_cons]
    exact ih _ (goc_count x h)

/-! ## Lemmas on the lock trace -/

theorem markLocks_readFiles (l : List String) (r : List Ev) :
    markLocks true (l.map Ev.readFile ++ r)
      = l.map (fun id => (Ev.readFile id, true)) ++ markLocks true r := by
  induction l with
  | nil => rfl
  | cons x xs ih =>
    simp only [List.map_cons, List.cons_append, markLocks, List.append_eq, ih]

/-! ## Concrete instances used to exercise the claims -/

/-- A filesystem with one discovered sensor whose file is unreadable. -/
def fs_single : Fs := ⟨some [("28-a")], fun _ => none⟩

/-- A filesystem whose devices directory cannot be listed. -/
def fs_none : Fs := ⟨none, fun _ => none⟩

/-- Two sensors: `28-a` unreadable, `28-b` valid. -/
def fs_two : Fs :=
  ⟨some [("28-a"), ("28-b")],
   fun s => if s = ("28-a") then none else some (("abc\nt=5\n").data)⟩

/-- One sensor `28-b` with valid content (and no `28-mock` device). -/
def fs_other : Fs := ⟨some [("28-b")], fun _ => some (("abc\nt=5\n").data)⟩

/-- The empty in-memory state. -/
def cyc_empty : CycleState := ⟨[], emptyReg⟩

/-- The in-memory state right after a failed startup scan. -/
def cyc_mock : CycleState := ⟨[], main_startup none emptyReg⟩

/-- A cached map holding `28-a` then `28-b` (insertion order, sorted). -/
def temps_ab : List (String × ℚ) := [(("28-a"), 1), (("28-b"), 2)]

/-- The same entries in the reversed order. -/
def out_ba : List (String × ℚ) := [(("28-b"), 2), (("28-a"), 1)]

/-- The inputs on which the Sensor Reader fails: the file is unreadable,
there are fewer than two lines, the second line has no `t=` field, or the
text after the first `t=` does not parse as an `i32`. -/
def bad_input (file : Option (List Char)) : Prop :=
  file = none
  ∨ ∃ c, file = some c ∧
      ((rustLines c).length < 2
       ∨ ∃ line, (rustLines c).get? 1 = some line ∧
           (hasTEq line = false
            ∨ ∃ s, afterFirstTEq line = some s ∧ parseI32 s = none))

/-! ## Claims -/

/-- C1 (counterexample): on the spec's own example content
`"abc\nxyz t=23625 def\n"`, whose second line has further text after the
integer, `read_temperature` does not return `23.625`: the `i32` parse of
`"23625 def"` fails, so the reader reports a parse error and no value. -/
theorem C1_counterexample :
    read_temperature (some ("abc\nxyz t=23625 def\n").data) = .error .parseError
    ∧ ∀ q : ℚ, read_temperature (some ("abc\nxyz t=23625 def\n").data) ≠ .ok q := by
  refine ⟨rfl, ?_⟩
  intro q hq
  have h2 : (Except.error ReadError.parseError : Except ReadError ℚ) = Except.ok q :=
    Eq.trans (rfl : read_temperature (some ("abc\nxyz t=23625 def\n").data)
      = .error .parseError).symm hq
  exact Except.noConfusion h2

/-- C1 (amended): for every raw content whose second line consists of a
`t=` field whose remainder (up to the next `t=` or the end of the line) is
exactly an `i32` integer literal denoting `N` — no further text after `N` —
`read_temperature` succeeds and returns exactly `N/1000`; in particular for
content `"abc\nxyz t=23625\n"` it returns `23.625`. -/
theorem C1_read_temperature_exact (l1 pre s rest : List Char) (N : Int)
    (h1 : '\n' ∉ l1) (h2 : '\n' ∉ pre) (h3 : hasTEq pre = false)
    (hp : parseI32 s = some N) :
    read_temperature (some (l1 ++ '\n' :: ((pre ++ 't' :: '=' :: s) ++ '\n' :: rest)))
      = .ok ((N : ℚ) / 1000) := by
  have hIV := ((parseI32_eq_some_iff s N).mp hp).1
  show Except.map (fun n : Int => (n : ℚ) / 1000)
      (read_temperature_raw (l1 ++ '\n' :: ((pre ++ 't' :: '=' :: s) ++ '\n' :: rest)))
    = Except.ok ((N : ℚ) / 1000)
  rw [read_raw_pipeline l1 pre s rest h1 h2 h3 hIV, hp]
  rfl

/-- Witness for C1: the amended theorem at the spec's example with the
trailing text removed, i.e. content `"abc\nxyz t=23625\n"`. -/
theorem C1_witness :
    ('\n' ∉ ("abc").data) ∧ ('\n' ∉ ("xyz ").data)
      ∧ hasTEq ("xyz ").data = false
      ∧ parseI32 ("23625").data = some 23625
      ∧ read_temperature (some (("abc").data
          ++ '\n' :: (((("xyz ").data ++ 't' :: '=' :: ("23625").data)) ++ '\n' :: [])))
        = .ok (((23625 : Int) : ℚ) / 1000) :=
  ⟨by decide, by decide, by decide, by decide,
    C1_read_temperature_exact (("abc").data) (("xyz ").data) (("23625").data) [] 23625
      (by decide) (by decide) (by decide) (by decide)⟩

/-- C2: get-or-create on the gauge map is idempotent — a second call with
the same id returns the same gauge handle and leaves the state unchanged —
and across any sequence of calls the registry holds exactly one metric per
distinct id seen. -/
theorem C2_registration_idempotent :
    (∀ (st : RegState) (id : String),
        get_or_create ((get_or_create st id).2) id
          = ((get_or_create st id).1, (get_or_create st id).2))
    ∧ ∀ ids : List String, (run_calls ids).registry.length = ids.toFinset.card := by
  refine ⟨goc_twice, ?_⟩
  intro ids
  unfold run_calls
  have hcount := run_from_count ids emptyReg ⟨List.nodup_nil, rfl⟩
  have hkeys := run_from_keyset ids emptyReg
  have h1 : (ids.foldl (fun st id => (get_or_create st id).2) emptyReg).registry.length
      = (reg_keys (ids.foldl (fun st id => (get_or_create st id).2) emptyReg)).length := by
    rw [hcount.2]
    exact (List.length_map _ _).symm
  rw [h1, ← List.toFinset_card_of_nodup hcount.1, hkeys]
  simp [reg_keys, emptyReg]

/-- C3 (counterexample): with one discovered sensor (`fs_single`), the
per-sensor file read event occurs while the two write locks are held, so
the cycle does not keep filesystem reads outside the locks. -/
theorem C3_counterexample : ¬ locks_respected fs_single := by
  intro h
  have hmem : (Ev.readFile ("28-a"), true) ∈ markLocks false (cycle_trace fs_single) := by
    decide
  have := h (Ev.readFile ("28-a")) true hmem rfl
  exact Bool.noConfusion this

/-- C3 (amended): in every cycle, only the opening of the directory listing
happens outside the locks; every per-sensor file read happens while both
write locks are held (they are taken before the sensor loop and dropped
after it). -/
theorem C3_locks_amended (fs : Fs) (e : Ev) (b : Bool)
    (hmem : (e, b) ∈ markLocks false (cycle_trace fs)) (hfs : isFsRead e = true) :
    (e = Ev.readDir ∧ b = false) ∨ ∃ id, e = Ev.readFile id ∧ b = true := by
  cases hdir : fs.dir with
  | none =>
    have htr : cycle_trace fs = [Ev.readDir, Ev.sleepTick] := by
      simp only [cycle_trace, hdir]
    rw [htr] at hmem
    have hml : markLocks false [Ev.readDir, Ev.sleepTick]
        = [(Ev.readDir, false), (Ev.sleepTick, false)] := rfl
    rw [hml] at hmem
    rcases List.mem_cons.mp hmem with h | h2
    · exact Or.inl ⟨congrArg Prod.fst h, congrArg Prod.snd h⟩
    · rcases List.mem_cons.mp h2 with h | h3
      · have he : e = Ev.sleepTick := congrArg Prod.fst h
        rw [he] at hfs
        exact absurd hfs (by decide)
      · exact absurd h3 (List.not_mem_nil _)
  | some entries =>
    have htr : cycle_trace fs = Ev.readDir :: Ev.acquireLocks ::
        ((sensors_of entries).map Ev.readFile ++ [Ev.releaseLocks, Ev.sleepTick]) := by
      simp only [cycle_trace, hdir]
    rw [htr] at hmem
    have hml : markLocks false (Ev.readDir :: Ev.acquireLocks ::
        ((sensors_of entries).map Ev.readFile ++ [Ev.releaseLocks, Ev.sleepTick]))
        = (Ev.readDir, false) :: (Ev.acquireLocks, false) ::
            ((sensors_of entries).map (fun id => (Ev.readFile id, true))
              ++ [(Ev.releaseLocks, true), (Ev.sleepTick, false)]) := by
      show (Ev.readDir, false) :: (Ev.acquireLocks, false) ::
          markLocks true ((sensors_of entries).map Ev.readFile
            ++ [Ev.releaseLocks, Ev.sleepTick]) = _
      rw [markLocks_readFiles]
      simp [markLocks]
    rw [hml] at hmem
    rcases List.mem_cons.mp hmem with h | h2
    · exact Or.inl ⟨congrArg Prod.fst h, congrArg Prod.snd h⟩
    · rcases List.mem_cons.mp h2 with h | h3
      · have he : e = Ev.acquireLocks := congrArg Prod.fst h
        rw [he] at hfs
        exact absurd hfs (by decide)
      · rcases List.mem_append.mp h3 with h4 | h5
        · obtain ⟨id, hid, hpair⟩ := List.mem_map.mp h4
          exact Or.inr ⟨id, (congrArg Prod.fst hpair).symm, (congrArg Prod.snd hpair).symm⟩
        · rcases List.mem_cons.mp h5 with h | h6
          · have he : e = Ev.releaseLocks := congrArg Prod.fst h
            rw [he] at hfs
            exact absurd hfs (by decide)
          · rcases List.mem_cons.mp h6 with h | h7
            · have he : e = Ev.sleepTick := congrArg Prod.fst h
              rw [he] at hfs
              exact absurd hfs (by decide)
            · exact absurd h7 (List.not_mem_nil _)

/-- Witness for C3: the amended theorem at the one-sensor filesystem, for
the locked read of `28-a`. -/
theorem C3_witness :
    ((Ev.readFile ("28-a"), true) ∈ markLocks false (cycle_trace fs_single))
    ∧ isFsRead (Ev.readFile ("28-a")) = true
    ∧ ((Ev.readFile ("28-a") = Ev.readDir ∧ true = false)
        ∨ ∃ id, Ev.readFile ("28-a") = Ev.readFile id ∧ true = true) :=
  ⟨by decide, rfl,
    C3_locks_amended fs_single (Ev.readFile ("28-a")) true (by decide) rfl⟩

/-- C4 (counterexample): iteration over the `temperatures` `HashMap` may
yield the reversed order `out_ba` for the cache `temps_ab` (whose insertion
order is also its sorted order), which is neither ordered by sensor id nor
in insertion order — so the handler guarantees neither order. -/
theorem C4_counterexample :
    HandlerOutput temps_ab out_ba
    ∧ sortedById out_ba = false
    ∧ out_ba ≠ temps_ab :=
  ⟨List.Perm.swap _ _ _, by decide, by decide⟩

/-- C4 (amended): the `/temperatures` handler returns the cached entries in
an arbitrary `HashMap`-iteration order: every possible output is a
permutation of the cache — same length, exactly the same entries — with no
guaranteed order. -/
theorem C4_snapshot_set (temps out : List (String × ℚ)) (h : HandlerOutput temps out) :
    out.length = temps.length ∧ ∀ p, p ∈ out ↔ p ∈ temps :=
  ⟨h.length_eq.symm, fun p => (h.mem_iff).symm⟩

/-- Witness for C4: the amended theorem at the two-sensor cache and its
reversed iteration order. -/
theorem C4_witness :
    HandlerOutput temps_ab out_ba
    ∧ out_ba.length = temps_ab.length
    ∧ ∀ p, p ∈ out_ba ↔ p ∈ temps_ab :=
  ⟨List.Perm.swap _ _ _,
    (C4_snapshot_set temps_ab out_ba (List.Perm.swap _ _ _)).1,
    (C4_snapshot_set temps_ab out_ba (List.Perm.swap _ _ _)).2⟩

/-- C5: the Sensor Reader returns an error exactly when the input is bad
(file unreadable, fewer than two lines, no `t=` field on the second line,
or the text after `t=` not an `i32` integer); on every such input it
returns an error value (totality of the Lean model stands in for "never
panics"), and every successful value comes from an actually parsed `t=`
field — never a default reading. -/
theorem C5_error_characterisation (file : Option (List Char)) :
    ((∃ e, read_temperature file = .error e) ↔ bad_input file)
    ∧ ((∃ q, read_temperature file = .ok q) ↔ ¬ bad_input file)
    ∧ ∀ q, read_temperature file = .ok q →
        ∃ c line s n, file = some c ∧ (rustLines c).get? 1 = some line
          ∧ afterFirstTEq line = some s ∧ parseI32 s = some n
          ∧ q = (n : ℚ) / 1000 := by
  cases file with
  | none =>
    refine ⟨Iff.intro (fun _ => Or.inl rfl) (fun _ => ⟨.missingFile, rfl⟩), ?_, ?_⟩
    · refine Iff.intro ?_ ?_
      · rintro ⟨q, hq⟩
        exact Except.noConfusion hq
      · intro h
        exact absurd (Or.inl rfl) h
    · intro q hq
      exact Except.noConfusion hq
  | some c =>
    cases hL : (rustLines c).get? 1 with
    | none =>
      have hread : read_temperature (some c) = .error .noSecondLine := by
        show Except.map (fun n : Int => (n : ℚ) / 1000) (read_temperature_raw c) = _
        unfold read_temperature_raw
        rw [hL]
        rfl
      have hbad : bad_input (some c) :=
        Or.inr ⟨c, rfl, Or.inl (Nat.lt_succ_of_le (List.get?_eq_none.mp hL))⟩
      refine ⟨Iff.intro (fun _ => hbad) (fun _ => ⟨.noSecondLine, hread⟩), ?_, ?_⟩
      · refine Iff.intro ?_ ?_
        · rintro ⟨q, hq⟩
          rw [hread] at hq
          exact Except.noConfusion hq
        · intro h
          exact absurd hbad h
      · intro q hq
        rw [hread] at hq
        exact Except.noConfusion hq
    | some line =>
      cases hA : afterFirstTEq line with
      | none =>
        have hread : read_temperature (some c) = .error .noTField := by
          show Except.map (fun n : Int => (n : ℚ) / 1000) (read_temperature_raw c) = _
          unfold read_temperature_raw
          rw [hL]
          simp only [hA]
          rfl
        have hbad : bad_input (some c) :=
          Or.inr ⟨c, rfl, Or.inr ⟨line, hL, Or.inl (by unfold hasTEq; rw [hA]; rfl)⟩⟩
        refine ⟨Iff.intro (fun _ => hbad) (fun _ => ⟨.noTField, hread⟩), ?_, ?_⟩
        · refine Iff.intro ?_ ?_
          · rintro ⟨q, hq⟩
            rw [hread] at hq
            exact Except.noConfusion hq
          · intro h
            exact absurd hbad h
        · intro q hq
          rw [hread] at hq
          exact Except.noConfusion hq
      | some s =>
        cases hP : parseI32 s with
        | none =>
          have hread : read_temperature (some c) = .error .parseError := by
            show Except.map (fun n : Int => (n : ℚ) / 1000) (read_temperature_raw c) = _
            unfold read_temperature_raw
            rw [hL]
            simp only [hA, hP]
            rfl
          have hbad : bad_input (some c) :=
            Or.inr ⟨c, rfl, Or.inr ⟨line, hL, Or.inr ⟨s, hA, hP⟩⟩⟩
          refine ⟨Iff.intro (fun _ => hbad) (fun _ => ⟨.parseError, hread⟩), ?_, ?_⟩
          · refine Iff.intro ?_ ?_
            · rintro ⟨q, hq⟩
              rw [hread] at hq
              exact Except.noConfusion hq
            · intro h
              exact absurd hbad h
          · intro q hq
            rw [hread] at hq
            exact Except.noConfusion hq
        | some n =>
          have hread : read_temperature (some c) = .ok ((n : ℚ) / 1000) := by
            show Except.map (fun n : Int => (n : ℚ) / 1000) (read_temperature_raw c) = _
            unfold read_temperature_raw
            rw [hL]
            simp only [hA, hP]
            rfl
          have hnotbad : ¬ bad_input (some c) := by
            intro hb
            rcases hb with hnone | ⟨c', hc', hrest⟩
            · exact Option.noConfusion hnone
            · obtain rfl : c' = c := (Option.some.inj hc').symm
              rcases hrest with hlen | ⟨line', hline', hrest2⟩
              · obtain ⟨hlt, -⟩ := List.get?_eq_some.mp hL
                omega
              · obtain rfl : line' = line := Option.some.inj (hline'.symm.trans hL)
                rcases hrest2 with hteq | ⟨s', hs', hp'⟩
                · unfold hasTEq at hteq
                  rw [hA] at hteq
                  exact Bool.noConfusion hteq
                · obtain rfl : s' = s := Option.some.inj (hs'.symm.trans hA)
                  rw [hP] at hp'
                  exact Option.noConfusion hp'
          refine ⟨?_, Iff.intro (fun _ => hnotbad) (fun _ => ⟨_, hread⟩), ?_⟩
          · refine Iff.intro ?_ ?_
            · rintro ⟨e, he⟩
              rw [hread] at he
              exact absurd (Except.noConfusion he) (fun f => f)
            · intro hb
              exact absurd hb hnotbad
          · intro q hq
            rw [hread] at hq
            exact ⟨c, line, s, n, rfl, hL, hA, hP, (Except.ok.inj hq).symm⟩

/-- C6: device classification selects exactly the names beginning with
`"28-"`; in particular, of `{28-0001, 28-0002, foo-bar, 00-xyz}` exactly
the first two are selected. -/
theorem C6_sensor_filter :
    (∀ (entries : List String) (e : String),
        e ∈ sensors_of entries ↔ e ∈ entries ∧ isSensorName e = true)
    ∧ sensors_of [("28-0001"), ("28-0002"), ("foo-bar"), ("00-xyz")]
        = [("28-0001"), ("28-0002")] := by
  refine ⟨?_, by decide⟩
  intro entries e
  unfold sensors_of
  exact List.mem_filter

/-- C7: when the devices directory cannot be listed, a cycle changes
nothing — temperatures map, gauge map, registry and values are all left
exactly as they were — and the iteration still ends in the sleep until the
next tick. -/
theorem C7_enum_failure (fs : Fs) (st : CycleState) (h : fs.dir = none) :
    update_temperatures_cycle fs st = st
    ∧ (cycle_trace fs).getLast? = some Ev.sleepTick := by
  constructor
  · unfold update_temperatures_cycle
    rw [h]
  · have htr : cycle_trace fs = [Ev.readDir, Ev.sleepTick] := by
      simp only [cycle_trace, h]
    rw [htr]
    rfl

/-- Witness for C7: a cycle against an unlistable directory from the empty
state. -/
theorem C7_witness :
    fs_none.dir = none
    ∧ update_temperatures_cycle fs_none cyc_empty = cyc_empty
    ∧ (cycle_trace fs_none).getLast? = some Ev.sleepTick :=
  ⟨rfl, (C7_enum_failure fs_none cyc_empty rfl).1, (C7_enum_failure fs_none cyc_empty rfl).2⟩

/-- C8: within one cycle over distinct discovered sensors, a sensor whose
read fails keeps its previous temperature entry, gauge-map entry and gauge
value, while every other sensor whose read succeeds is still updated in the
temperatures map. -/
theorem C8_failed_sensor_frame (fs : Fs) (st : CycleState) (entries : List String)
    (hdir : fs.dir = some entries) (hnd : (sensors_of entries).Nodup)
    (hWF : RegWF st.reg) (name : String) (hmem : name ∈ sensors_of entries)
    (hfail : (read_temperature (fs.file name)).isOk = false) :
    alookup name (update_temperatures_cycle fs st).temps = alookup name st.temps
    ∧ alookup name (update_temperatures_cycle fs st).reg.gauges
        = alookup name st.reg.gauges
    ∧ (∀ g, alookup name st.reg.gauges = some g →
        alookup g (update_temperatures_cycle fs st).reg.values
          = alookup g st.reg.values)
    ∧ ∀ other t, other ∈ sensors_of entries →
        read_temperature (fs.file other) = .ok t →
        alookup other (update_temperatures_cycle fs st).temps = some t := by
  have hcyc : update_temperatures_cycle fs st
      = (sensors_of entries).foldl (process_sensor fs) st := by
    simp only [update_temperatures_cycle, hdir]
  rw [hcyc]
  have hcond : ∀ x ∈ sensors_of entries, x = name →
      (read_temperature (fs.file x)).isOk = false := by
    intro x _ hx
    rw [hx]
    exact hfail
  obtain ⟨ht, hg⟩ := fold_frame fs name (sensors_of entries) st hcond
  refine ⟨ht, hg, ?_, ?_⟩
  · intro g hname
    exact (fold_val_frame fs name g (sensors_of entries) st hWF hname hcond).2.2
  · intro other t hother hread
    exact fold_ok_temps fs (sensors_of entries) st other t hnd hother hread

/-- Witness for C8: two sensors, `28-a` unreadable and `28-b` valid, from
the empty state: `28-a` stays absent everywhere while `28-b` is stored. -/
theorem C8_witness :
    fs_two.dir = some [("28-a"), ("28-b")]
    ∧ (sensors_of [("28-a"), ("28-b")]).Nodup
    ∧ RegWF cyc_empty.reg
    ∧ (("28-a") ∈ sensors_of [("28-a"), ("28-b")])
    ∧ (read_temperature (fs_two.file ("28-a"))).isOk = false
    ∧ (alookup ("28-a") (update_temperatures_cycle fs_two cyc_empty).temps
          = alookup ("28-a") cyc_empty.temps
        ∧ alookup ("28-a") (update_temperatures_cycle fs_two cyc_empty).reg.gauges
            = alookup ("28-a") cyc_empty.reg.gauges
        ∧ (∀ g, alookup ("28-a") cyc_empty.reg.gauges = some g →
            alookup g (update_temperatures_cycle fs_two cyc_empty).reg.values
              = alookup g cyc_empty.reg.values)
        ∧ ∀ other t, other ∈ sensors_of [("28-a"), ("28-b")] →
            read_temperature (fs_two.file other) = .ok t →
            alookup other (update_temperatures_cycle fs_two cyc_empty).temps = some t) :=
  ⟨rfl, by decide, ⟨by decide, by decide⟩, by decide, by decide,
    C8_failed_sensor_frame fs_two cyc_empty [("28-a"), ("28-b")] rfl (by decide)
      ⟨by decide, by decide⟩ ("28-a") (by decide) (by decide)⟩

/-- C9: when the startup directory listing fails, `main` registers a gauge
for the fictitious sensor id `28-mock` with initial value `0`, which
appears in the `/metrics` exposition; and as long as no cycle ever
discovers a device named `28-mock`, the gauge's value is never written. -/
theorem C9_mock_gauge :
    render_metrics (main_startup none emptyReg) = [(mockId, (0 : ℚ))]
    ∧ alookup mockId (main_startup none emptyReg).gauges = some 0
    ∧ ∀ (fs : Fs) (cst : CycleState) (g : Nat),
        (∀ entries, fs.dir = some entries → mockId ∉ entries) →
        RegWF cst.reg → alookup mockId cst.reg.gauges = some g →
        alookup g (update_temperatures_cycle fs cst).reg.values
          = alookup g cst.reg.values := by
  refine ⟨rfl, rfl, ?_⟩
  intro fs cst g hdir hWF hlook
  cases hd : fs.dir with
  | none =>
    have hid : update_temperatures_cycle fs cst = cst := by
      simp only [update_temperatures_cycle, hd]
    rw [hid]
  | some entries =>
    have hcyc : update_temperatures_cycle fs cst
        = (sensors_of entries).foldl (process_sensor fs) cst := by
      simp only [update_temperatures_cycle, hd]
    rw [hcyc]
    have hcond : ∀ x ∈ sensors_of entries, x = mockId →
        (read_temperature (fs.file x)).isOk = false := by
      intro x hx hxe
      exfalso
      have hxent : x ∈ entries := (List.mem_filter.mp hx).1
      rw [hxe] at hxent
      exact hdir entries hd hxent
    exact (fold_val_frame fs mockId g (sensors_of entries) cst hWF hlook hcond).2.2

/-- Witness for C9: after the failed startup scan, a cycle that reads a
real sensor `28-b` leaves the mock gauge's value untouched. -/
theorem C9_witness :
    (∀ entries, fs_other.dir = some entries → mockId ∉ entries)
    ∧ RegWF cyc_mock.reg
    ∧ alookup mockId cyc_mock.reg.gauges = some 0
    ∧ alookup 0 (update_temperatures_cycle fs_other cyc_mock).reg.values
        = alookup 0 cyc_mock.reg.values :=
  ⟨fun entries h => by
      obtain rfl : [("28-b")] = entries := Option.some.inj h
      decide,
    ⟨by decide, by decide⟩, by decide,
    (C9_mock_gauge).2.2 fs_other cyc_mock 0
      (fun entries h => by
        obtain rfl : [("28-b")] = entries := Option.some.inj h
        decide)
      ⟨by decide, by decide⟩ (by decide)⟩

/-- C10: the value after `t=` is parsed as a signed 32-bit integer: a
syntactically valid integer whose value lies outside
`[-2147483648, 2147483647]` fails the parse, and the reader reports a
parse error rather than a temperature. -/
theorem C10_i32_range (l1 pre s rest : List Char) (N : Int)
    (h1 : '\n' ∉ l1) (h2 : '\n' ∉ pre) (h3 : hasTEq pre = false)
    (hIV : intVal s = some N)
    (hout : N < -2147483648 ∨ 2147483647 < N) :
    parseI32 s = none
    ∧ read_temperature (some (l1 ++ '\n' :: ((pre ++ 't' :: '=' :: s) ++ '\n' :: rest)))
        = .error .parseError := by
  have hnone : parseI32 s = none := by
    unfold parseI32
    rw [hIV]
    simp only [Option.bind]
    rw [if_neg (by rcases hout with h | h <;> omega)]
  refine ⟨hnone, ?_⟩
  show Except.map (fun n : Int => (n : ℚ) / 1000)
      (read_temperature_raw (l1 ++ '\n' :: ((pre ++ 't' :: '=' :: s) ++ '\n' :: rest)))
    = Except.error ReadError.parseError
  rw [read_raw_pipeline l1 pre s rest h1 h2 h3 hIV, hnone]
  rfl

/-- Witness for C10: the value `2147483648 = 2^31`, one past `i32::MAX`. -/
theorem C10_witness :
    ('\n' ∉ ("abc").data) ∧ ('\n' ∉ ([] : List Char)) ∧ hasTEq [] = false
    ∧ intVal ("2147483648").data = some 2147483648
    ∧ ((2147483648 : Int) < -2147483648 ∨ (2147483647 : Int) < 2147483648)
    ∧ (parseI32 ("2147483648").data = none
        ∧ read_temperature (some (("abc").data
            ++ '\n' :: (([] ++ 't' :: '=' :: ("2147483648").data) ++ '\n' :: [])))
          = .error .parseError) :=
  ⟨by decide, by decide, rfl, by decide, Or.inr (by decide),
    C10_i32_range (("abc").data) [] (("2147483648").data) [] 2147483648
      (by decide) (by decide) rfl (by decide) (Or.inr (by decide))⟩
